import Mathlib

/-!
Verification of the Challenge_1b ranking core.

A shallow embedding of `src/challenge_1b/core/ranking_engine.py` together
with the data model of `src/challenge_1b/data_structures.py`, and proofs of
the specification claims about it.

Modelling conventions:
* Python floats are modelled by exact rationals `ℚ`; `np.dot` on equal-length
  1-D arrays is the sum of pointwise products, and raises an error
  (`ValueError`, which the specification calls `DimensionMismatch`) when the
  lengths differ.
* In-place mutation of the object graph is modelled by explicit state
  passing: the functions return the updated list of documents.  When scoring
  raises, the partially updated state (every chunk visited before the failing
  one keeps its freshly written score, exactly as the Python objects do) is
  carried on the error branch.
* Python's `sorted` is a stable sort.  A stable sort of a list of distinct
  objects, descending by a key, yields exactly the list sorted by the
  lexicographic order "key descending, then original position ascending".
  We model object identity by tagging each element with its position
  (`withIdx`), and sort with `List.insertionSort` under that lexicographic
  relation, which is total, transitive and decidable.
-/

namespace Challenge1b

/-- Embedding of the `Chunk` dataclass (`data_structures.py`).  The embedding
vector is the populated `np.ndarray` the ranking core receives, modelled as a
list of rationals. -/
structure Chunk where
  text : String
  source_doc_name : String
  source_section_title : String
  embedding : List ℚ := []
  similarity_score : Option ℚ := none
  deriving Repr, DecidableEq

/-- Embedding of the `Section` dataclass (`data_structures.py`). -/
structure Section where
  title : String
  page_number : Int := 1
  source_doc_name : String := ""
  raw_text : String := ""
  chunks : List Chunk := []
  aggregated_score : Option ℚ := none
  rank : Option Int := none
  deriving Repr, DecidableEq

/-- Embedding of the `Document` dataclass (`data_structures.py`). -/
structure Document where
  filename : String := ""
  sections : List Section := []
  deriving Repr, DecidableEq

/-- The configuration held by `RankingEngine.__init__`
(`ranking_engine.py`, lines 22-34). -/
structure RankingEngine where
  top_k_chunks : Nat := 3
  top_n_sections_for_analysis : Nat := 5
  deriving Repr, DecidableEq

/-- The error raised when the query vector and a chunk embedding have
different lengths: `np.dot` raises `ValueError` on mismatched 1-D shapes;
the specification names this failure `DimensionMismatch`. -/
inductive RankError where
  | dimensionMismatch
  deriving Repr, DecidableEq

/-- One record of the list built by `perform_sub_section_analysis`
(`ranking_engine.py`, lines 95-101); field names follow the dict keys. -/
structure AnalysisRecord where
  source_document : String
  section_title : String
  importance_rank : Option Int
  refined_text_snippet : String
  snippet_relevance_score : ℚ
  deriving Repr, DecidableEq

/-- `np.dot` on two equal-length 1-D arrays: sum of pointwise products. -/
def npDot (a b : List ℚ) : ℚ := (List.zipWith (fun x y => x * y) a b).sum

/-- The similarity score stored on a chunk, read back as a rational
(`None` never occurs once scoring has run; `0` is an arbitrary default
making the read total). -/
def chunkScore (c : Chunk) : ℚ := c.similarity_score.getD 0

/-- The aggregated score stored on a section, read back as a rational. -/
def secScore (s : Section) : ℚ := s.aggregated_score.getD 0

/-- Scoring one chunk (`ranking_engine.py`, lines 113-115):
`score = np.dot(chunk.embedding, query_embedding)` followed by
`chunk.similarity_score = float(score)`; `np.dot` raises when the
1-D shapes differ. -/
def scoreChunk (q : List ℚ) (c : Chunk) : Except RankError Chunk :=
  if c.embedding.length = q.length then
    Except.ok { c with similarity_score := some (npDot c.embedding q) }
  else Except.error RankError.dimensionMismatch

/-- The inner loop of `_score_all_chunks` over one section's chunk list.
On failure the already-visited chunks keep their new scores (the Python
objects were mutated in place before the exception); the failing chunk and
the rest are untouched.  The boolean records success. -/
def scoreChunks (q : List ℚ) : List Chunk → List Chunk × Bool
  | [] => ([], true)
  | c :: cs =>
    match scoreChunk q c with
    | Except.ok c' =>
      let r := scoreChunks q cs
      (c' :: r.1, r.2)
    | Except.error _ => (c :: cs, false)

/-- `_score_all_chunks` over a list of sections (`ranking_engine.py`,
lines 109-115), with the same partial-mutation semantics on failure. -/
def scoreSections (q : List ℚ) : List Section → List Section × Bool
  | [] => ([], true)
  | s :: ss =>
    if (scoreChunks q s.chunks).2 then
      ({ s with chunks := (scoreChunks q s.chunks).1 } :: (scoreSections q ss).1,
        (scoreSections q ss).2)
    else ({ s with chunks := (scoreChunks q s.chunks).1 } :: ss, false)

/-- `_score_all_chunks` over the whole document list.  The flattened section
list built by `_get_all_sections` visits documents in order and each
document's sections in order, so iterating document by document is the same
iteration. -/
def scoreDocs (q : List ℚ) : List Document → List Document × Bool
  | [] => ([], true)
  | d :: ds =>
    if (scoreSections q d.sections).2 then
      ({ d with sections := (scoreSections q d.sections).1 } :: (scoreDocs q ds).1,
        (scoreDocs q ds).2)
    else ({ d with sections := (scoreSections q d.sections).1 } :: ds, false)

/-- `sorted(chunk_scores, reverse=True)` on a list of floats: the unique
descending arrangement of the multiset of scores. -/
def sortDescQ (l : List ℚ) : List ℚ := List.insertionSort (fun a b => b ≤ a) l

/-- The value `_aggregate_section_scores` writes into
`section.aggregated_score` (`ranking_engine.py`, lines 119-134): `0.0` for a
chunkless section, otherwise the mean of the top `min(top_k_chunks, count)`
chunk scores (`0.0` again if that selection is empty, which happens exactly
when `top_k_chunks = 0`). -/
def aggScore (k : Nat) (cs : List Chunk) : ℚ :=
  if cs.isEmpty then 0
  else
    let chunk_scores := cs.map chunkScore
    let num := min k chunk_scores.length
    let top_k_scores := (sortDescQ chunk_scores).take num
    if top_k_scores.isEmpty then 0
    else top_k_scores.sum / (top_k_scores.length : ℚ)

/-- The loop body of `_aggregate_section_scores`: every branch ends by
assigning `section.aggregated_score`. -/
def aggregateSection (k : Nat) (s : Section) : Section :=
  { s with aggregated_score := some (aggScore k s.chunks) }

/-- `_aggregate_section_scores` over the whole document list (the flattened
iteration order is immaterial: each section is updated independently). -/
def aggregateDocs (k : Nat) (ds : List Document) : List Document :=
  ds.map fun d => { d with sections := d.sections.map (aggregateSection k) }

/-- `_get_all_sections` (`ranking_engine.py`, lines 105-107). -/
def flattenSections (ds : List Document) : List Section :=
  ds.flatMap fun d => d.sections

/-- Tags each element of a list with its position, starting at `j`.
Models Python object identity: list elements are distinct objects. -/
def withIdx (j : Nat) : List α → List (Nat × α)
  | [] => []
  | a :: l => (j, a) :: withIdx (j + 1) l

/-- The lexicographic relation realising Python's stable descending sort by
`aggregated_score` over position-tagged sections: higher score first, ties by
original position. -/
def secBefore (a b : Nat × Section) : Prop :=
  secScore b.2 < secScore a.2 ∨ (secScore a.2 = secScore b.2 ∧ a.1 ≤ b.1)

instance : DecidableRel secBefore := fun a b => by
  unfold secBefore; exact inferInstance

instance : IsTotal (Nat × Section) secBefore where
  total a b := by
    unfold secBefore
    rcases lt_trichotomy (secScore a.2) (secScore b.2) with h | h | h
    · exact Or.inr (Or.inl h)
    · rcases Nat.le_total a.1 b.1 with hi | hi
      · exact Or.inl (Or.inr ⟨h, hi⟩)
      · exact Or.inr (Or.inr ⟨h.symm, hi⟩)
    · exact Or.inl (Or.inl h)

instance : IsTrans (Nat × Section) secBefore where
  trans a b c hab hbc := by
    unfold secBefore at *
    rcases hab with h1 | ⟨h1, hi1⟩
    · rcases hbc with h2 | ⟨h2, _⟩
      · exact Or.inl (h2.trans h1)
      · exact Or.inl (h2 ▸ h1)
    · rcases hbc with h2 | ⟨h2, hi2⟩
      · exact Or.inl (h1 ▸ h2)
      · exact Or.inr ⟨h1.trans h2, hi1.trans hi2⟩

/-- `[s for s in all_sections if s.aggregated_score is not None]`
(`ranking_engine.py`, line 58), on position-tagged sections. -/
def indexedScored (secs : List Section) : List (Nat × Section) :=
  (withIdx 0 secs).filter fun p => p.2.aggregated_score.isSome

/-- `sorted(scored_sections, key=lambda s: s.aggregated_score, reverse=True)`
(`ranking_engine.py`, line 59): Python's sort is stable, hence equal to the
lexicographic sort by (score descending, original position ascending). -/
def sortedIndexed (secs : List Section) : List (Nat × Section) :=
  List.insertionSort secBefore (indexedScored secs)

/-- The rank-assignment loop (`ranking_engine.py`, lines 62-63):
`section.rank = i + 1` along the sorted order. -/
def assignRanks (l : List (Nat × Section)) : List Section :=
  (withIdx 0 l).map fun p => { p.2.2 with rank := some ((p.1 : Int) + 1) }

/-- The rank the run writes into the section sitting at flattened position
`j`, if that section was ranked at all. -/
def rankOf (secs : List Section) (j : Nat) : Option Int :=
  ((withIdx 0 (sortedIndexed secs)).find? fun p => p.2.1 = j).map
    fun p => ((p.1 : Int) + 1)

/-- Writes a computed rank into a section (sections never ranked keep their
previous `rank`, as in Python). -/
def applyRank (ro : Nat → Option Int) (j : Nat) (s : Section) : Section :=
  match ro j with
  | some r => { s with rank := some r }
  | none => s

/-- The in-place rank writes, reflected into a section list whose first
element sits at flattened position `j`. -/
def setRanksSections (ro : Nat → Option Int) : Nat → List Section → List Section
  | _, [] => []
  | j, s :: ss => applyRank ro j s :: setRanksSections ro (j + 1) ss

/-- The in-place rank writes, reflected into the document list. -/
def setRanksDocs (ro : Nat → Option Int) : Nat → List Document → List Document
  | _, [] => []
  | j, d :: ds =>
    { d with sections := setRanksSections ro j d.sections } ::
      setRanksDocs ro (j + d.sections.length) ds

/-- The flattened list of all sections after scoring and aggregation
(the state of `all_sections` at line 58 of `ranking_engine.py`, in the happy
path). -/
def scoredAggSections (eng : RankingEngine) (docs : List Document) (q : List ℚ) :
    List Section :=
  flattenSections (aggregateDocs eng.top_k_chunks (scoreDocs q docs).1)

/-- `RankingEngine.rank_sections_globally` (`ranking_engine.py`,
lines 36-66).  Returns the post-state document list together with the
sorted, ranked section list; on a dimension mismatch it returns the error
together with the partially mutated state the exception leaves behind. -/
def rankSectionsGlobally (eng : RankingEngine) (docs : List Document)
    (q : List ℚ) : Except (RankError × List Document) (List Document × List Section) :=
  if (scoreDocs q docs).2 then
    Except.ok
      (setRanksDocs (rankOf (scoredAggSections eng docs q)) 0
          (aggregateDocs eng.top_k_chunks (scoreDocs q docs).1),
        assignRanks (sortedIndexed (scoredAggSections eng docs q)))
  else Except.error (RankError.dimensionMismatch, (scoreDocs q docs).1)

/-- The lexicographic relation realising Python's stable descending sort by
`similarity_score` over position-tagged chunks (`ranking_engine.py`,
line 90). -/
def chunkBefore (a b : Nat × Chunk) : Prop :=
  chunkScore b.2 < chunkScore a.2 ∨ (chunkScore a.2 = chunkScore b.2 ∧ a.1 ≤ b.1)

instance : DecidableRel chunkBefore := fun a b => by
  unfold chunkBefore; exact inferInstance

instance : IsTotal (Nat × Chunk) chunkBefore where
  total a b := by
    unfold chunkBefore
    rcases lt_trichotomy (chunkScore a.2) (chunkScore b.2) with h | h | h
    · exact Or.inr (Or.inl h)
    · rcases Nat.le_total a.1 b.1 with hi | hi
      · exact Or.inl (Or.inr ⟨h, hi⟩)
      · exact Or.inr (Or.inr ⟨h.symm, hi⟩)
    · exact Or.inl (Or.inl h)

instance : IsTrans (Nat × Chunk) chunkBefore where
  trans a b c hab hbc := by
    unfold chunkBefore at *
    rcases hab with h1 | ⟨h1, hi1⟩
    · rcases hbc with h2 | ⟨h2, _⟩
      · exact Or.inl (h2.trans h1)
      · exact Or.inl (h2 ▸ h1)
    · rcases hbc with h2 | ⟨h2, hi2⟩
      · exact Or.inl (h1 ▸ h2)
      · exact Or.inr ⟨h1.trans h2, hi1.trans hi2⟩

/-- `sorted(section.chunks, key=lambda c: c.similarity_score, reverse=True)`
(`ranking_engine.py`, line 90), again via the stable-sort-as-lexicographic
model on position-tagged chunks. -/
def sortedChunksOf (s : Section) : List Chunk :=
  (List.insertionSort chunkBefore (withIdx 0 s.chunks)).map fun p => p.2

/-- Python's `round` uses round-half-to-even. -/
def roundHalfEven (x : ℚ) : ℤ :=
  if x - ⌊x⌋ < 1 / 2 then ⌊x⌋
  else if 1 / 2 < x - ⌊x⌋ then ⌊x⌋ + 1
  else if Even ⌊x⌋ then ⌊x⌋ else ⌊x⌋ + 1

/-- `round(x, 4)` (`ranking_engine.py`, line 100). -/
def pyRound4 (x : ℚ) : ℚ := (roundHalfEven (x * 10000) : ℚ) / 10000

/-- The loop body of `perform_sub_section_analysis` (`ranking_engine.py`,
lines 85-101): skip a section with no chunks (`continue`), otherwise emit the
record built from its highest-scoring chunk.  (`sortedChunksOf` is never `[]`
when the chunk list is not; the `[]` branch is unreachable.) -/
def analyzeSection (s : Section) : Option AnalysisRecord :=
  if s.chunks.isEmpty then none
  else
    match sortedChunksOf s with
    | [] => none
    | top :: _ =>
      some { source_document := s.source_doc_name
             section_title := s.title
             importance_rank := s.rank
             refined_text_snippet := top.text
             snippet_relevance_score := pyRound4 (chunkScore top) }

/-- `RankingEngine.perform_sub_section_analysis` (`ranking_engine.py`,
lines 68-103).  Pure: the Python body only reads fields and builds new
lists/dicts (its `sorted` call returns a fresh list), so it performs no
mutation. -/
def performSubSectionAnalysis (eng : RankingEngine) (ranked : List Section) :
    List AnalysisRecord :=
  (ranked.take eng.top_n_sections_for_analysis).filterMap analyzeSection

/-! ## Helper definitions for stating and proving the claims -/

/-- The chunk produced by a successful scoring step. -/
def writeScore (q : List ℚ) (c : Chunk) : Chunk :=
  { c with similarity_score := some (npDot c.embedding q) }

/-- A fully and successfully scored section. -/
def writeScoreSec (q : List ℚ) (s : Section) : Section :=
  { s with chunks := s.chunks.map (writeScore q) }

/-- A fully and successfully scored document. -/
def writeScoreDoc (q : List ℚ) (d : Document) : Document :=
  { d with sections := d.sections.map (writeScoreSec q) }

/-- Everything of a chunk except its (mutable) `similarity_score`. -/
def chunkFrame (c c' : Chunk) : Prop :=
  c'.text = c.text ∧ c'.source_doc_name = c.source_doc_name ∧
    c'.source_section_title = c.source_section_title ∧ c'.embedding = c.embedding

/-- Everything of a section except its mutable fields
(`aggregated_score`, `rank`, and the chunks' `similarity_score`). -/
def secFrame (s s' : Section) : Prop :=
  s'.title = s.title ∧ s'.page_number = s.page_number ∧
    s'.source_doc_name = s.source_doc_name ∧ s'.raw_text = s.raw_text ∧
    List.Forall₂ chunkFrame s.chunks s'.chunks

/-- Everything of a document except the mutable fields below it. -/
def docFrame (d d' : Document) : Prop :=
  d'.filename = d.filename ∧ List.Forall₂ secFrame d.sections d'.sections

/-- A section whose `aggregated_score` and `rank` are additionally untouched
(only chunk similarity scores may have changed). -/
def secSame (s s' : Section) : Prop :=
  secFrame s s' ∧ s'.aggregated_score = s.aggregated_score ∧ s'.rank = s.rank

/-- A document whose sections satisfy `secSame` positionally. -/
def docSame (d d' : Document) : Prop :=
  d'.filename = d.filename ∧ List.Forall₂ secSame d.sections d'.sections

/-! ## Lemmas about `withIdx` -/

theorem withIdx_length (j : Nat) (l : List α) : (withIdx j l).length = l.length := by
  induction l generalizing j with
  | nil => rfl
  | cons a l ih => simp [withIdx, ih]

theorem withIdx_map (j : Nat) (f : α → β) (l : List α) :
    withIdx j (l.map f) = (withIdx j l).map fun p => (p.1, f p.2) := by
  induction l generalizing j with
  | nil => rfl
  | cons a l ih => simp [withIdx, ih]

theorem withIdx_append (j : Nat) (l₁ l₂ : List α) :
    withIdx j (l₁ ++ l₂) = withIdx j l₁ ++ withIdx (j + l₁.length) l₂ := by
  induction l₁ generalizing j with
  | nil => simp [withIdx]
  | cons a l ih =>
    have h : j + (a :: l).length = j + 1 + l.length := by
      simp only [List.length_cons]; omega
    calc withIdx j (a :: l ++ l₂) = (j, a) :: withIdx (j + 1) (l ++ l₂) := rfl
      _ = (j, a) :: (withIdx (j + 1) l ++ withIdx (j + 1 + l.length) l₂) := by rw [ih]
      _ = withIdx j (a :: l) ++ withIdx (j + (a :: l).length) l₂ := by rw [h]; rfl

theorem withIdx_getElem? (j i : Nat) (l : List α) :
    (withIdx j l)[i]? = l[i]?.map fun a => (j + i, a) := by
  induction l generalizing j i with
  | nil => simp [withIdx]
  | cons a l ih =>
    cases i with
    | zero => simp [withIdx]
    | succ i =>
      simp only [withIdx, List.getElem?_cons_succ, ih]
      cases l[i]? <;> simp [Nat.add_assoc, Nat.add_comm 1 i]

theorem mem_withIdx {j : Nat} {l : List α} {p : Nat × α} (h : p ∈ withIdx j l) :
    ∃ i, p.1 = j + i ∧ l[i]? = some p.2 := by
  rcases List.mem_iff_getElem?.1 h with ⟨i, hi⟩
  rw [withIdx_getElem? j i l] at hi
  cases hl : l[i]? with
  | none => rw [hl] at hi; simp at hi
  | some a =>
    rw [hl] at hi
    simp only [Option.map_some'] at hi
    cases hi
    exact ⟨i, rfl, hl⟩

theorem withIdx_map_snd (j : Nat) (l : List α) :
    (withIdx j l).map (fun p => p.2) = l := by
  induction l generalizing j with
  | nil => rfl
  | cons a l ih => simp [withIdx, ih]

theorem withIdx_map_fst (j : Nat) (l : List α) :
    (withIdx j l).map (fun p => p.1) = List.range' j l.length := by
  induction l generalizing j with
  | nil => rfl
  | cons a l ih => simp [withIdx, ih, List.range'_succ]

theorem withIdx_pairwise_fst (j : Nat) (l : List α) :
    (withIdx j l).Pairwise fun p r => p.1 < r.1 := by
  induction l generalizing j with
  | nil => exact List.Pairwise.nil
  | cons a l ih =>
    refine List.Pairwise.cons ?_ (ih (j + 1))
    intro p hp
    rcases mem_withIdx hp with ⟨i, h1, _⟩
    omega

theorem pairwise_withIdx_of_pairwise {R : α → α → Prop} {l : List α}
    (h : l.Pairwise R) (j : Nat) :
    (withIdx j l).Pairwise fun p r => R p.2 r.2 := by
  induction l generalizing j with
  | nil => exact List.Pairwise.nil
  | cons a l ih =>
    rcases List.pairwise_cons.1 h with ⟨ha, hl⟩
    refine List.Pairwise.cons ?_ (ih hl (j + 1))
    intro p hp
    rcases mem_withIdx hp with ⟨i, _, h2⟩
    exact ha p.2 (List.mem_iff_getElem?.2 ⟨i, h2⟩)

/-! ## Lemmas about scoring -/

theorem scoreChunks_snd_true_iff (q : List ℚ) (cs : List Chunk) :
    (scoreChunks q cs).2 = true ↔ ∀ c ∈ cs, c.embedding.length = q.length := by
  induction cs with
  | nil => simp [scoreChunks]
  | cons c cs ih =>
    by_cases h : c.embedding.length = q.length
    · simp [scoreChunks, scoreChunk, h, ih]
    · simp [scoreChunks, scoreChunk, h]

theorem scoreChunks_fst_of_snd_true {q : List ℚ} {cs : List Chunk}
    (h : (scoreChunks q cs).2 = true) :
    (scoreChunks q cs).1 = cs.map (writeScore q) := by
  induction cs with
  | nil => rfl
  | cons c cs ih =>
    by_cases hc : c.embedding.length = q.length
    · simp only [scoreChunks, scoreChunk, hc, if_true] at h ⊢
      simp [writeScore, ih h]
    · simp [scoreChunks, scoreChunk, hc] at h

theorem scoreSections_snd_true_iff (q : List ℚ) (ss : List Section) :
    (scoreSections q ss).2 = true ↔
      ∀ s ∈ ss, ∀ c ∈ s.chunks, c.embedding.length = q.length := by
  induction ss with
  | nil => simp [scoreSections]
  | cons s ss ih =>
    cases hB : (scoreChunks q s.chunks).2 with
    | true =>
      have h := (scoreChunks_snd_true_iff q s.chunks).1 hB
      simp only [scoreSections, hB, if_true]
      rw [ih, List.forall_mem_cons]
      exact (and_iff_right h).symm
    | false =>
      have h : ¬ ∀ c ∈ s.chunks, c.embedding.length = q.length := by
        intro hall
        rw [← scoreChunks_snd_true_iff q s.chunks] at hall
        rw [hB] at hall
        cases hall
      simp only [scoreSections, hB, if_false, Bool.false_eq_true, false_iff,
        List.forall_mem_cons, not_and]
      intro hc
      exact absurd hc h

theorem scoreSections_fst_of_snd_true {q : List ℚ} {ss : List Section}
    (h : (scoreSections q ss).2 = true) :
    (scoreSections q ss).1 = ss.map (writeScoreSec q) := by
  induction ss with
  | nil => rfl
  | cons s ss ih =>
    cases hB : (scoreChunks q s.chunks).2 with
    | true =>
      simp only [scoreSections, hB, if_true] at h ⊢
      rw [List.map_cons, writeScoreSec, ← scoreChunks_fst_of_snd_true hB, ih h]
    | false => simp [scoreSections, hB] at h

theorem scoreDocs_snd_true_iff (q : List ℚ) (ds : List Document) :
    (scoreDocs q ds).2 = true ↔
      ∀ d ∈ ds, ∀ s ∈ d.sections, ∀ c ∈ s.chunks,
        c.embedding.length = q.length := by
  induction ds with
  | nil => simp [scoreDocs]
  | cons d ds ih =>
    cases hB : (scoreSections q d.sections).2 with
    | true =>
      have h := (scoreSections_snd_true_iff q d.sections).1 hB
      simp only [scoreDocs, hB, if_true]
      rw [ih, List.forall_mem_cons]
      exact (and_iff_right h).symm
    | false =>
      have h : ¬ ∀ s ∈ d.sections, ∀ c ∈ s.chunks, c.embedding.length = q.length := by
        intro hall
        rw [← scoreSections_snd_true_iff q d.sections] at hall
        rw [hB] at hall
        cases hall
      simp only [scoreDocs, hB, if_false, Bool.false_eq_true, false_iff,
        List.forall_mem_cons, not_and]
      intro hc
      exact absurd hc h

theorem scoreDocs_fst_of_snd_true {q : List ℚ} {ds : List Document}
    (h : (scoreDocs q ds).2 = true) :
    (scoreDocs q ds).1 = ds.map (writeScoreDoc q) := by
  induction ds with
  | nil => rfl
  | cons d ds ih =>
    cases hB : (scoreSections q d.sections).2 with
    | true =>
      simp only [scoreDocs, hB, if_true] at h ⊢
      rw [List.map_cons, writeScoreDoc, ← scoreSections_fst_of_snd_true hB, ih h]
    | false => simp [scoreDocs, hB] at h

/-! ## Frame lemmas: which fields each pass can touch -/

theorem chunkFrame_refl (c : Chunk) : chunkFrame c c := ⟨rfl, rfl, rfl, rfl⟩

theorem secSame_refl (s : Section) : secSame s s :=
  ⟨⟨rfl, rfl, rfl, rfl, List.forall₂_same.2 fun c _ => chunkFrame_refl c⟩, rfl, rfl⟩

theorem chunkFrame_trans {a b c : Chunk} (h1 : chunkFrame a b) (h2 : chunkFrame b c) :
    chunkFrame a c :=
  ⟨h2.1.trans h1.1, h2.2.1.trans h1.2.1, h2.2.2.1.trans h1.2.2.1, h2.2.2.2.trans h1.2.2.2⟩

theorem forall₂_trans_of {R : α → α → Prop}
    (ht : ∀ a b c, R a b → R b c → R a c) :
    ∀ {l₁ l₂ l₃ : List α}, List.Forall₂ R l₁ l₂ → List.Forall₂ R l₂ l₃ →
      List.Forall₂ R l₁ l₃
  | _, _, _, List.Forall₂.nil, List.Forall₂.nil => List.Forall₂.nil
  | _, _, _, List.Forall₂.cons h1 t1, List.Forall₂.cons h2 t2 =>
    List.Forall₂.cons (ht _ _ _ h1 h2) (forall₂_trans_of ht t1 t2)

theorem secFrame_trans {a b c : Section} (h1 : secFrame a b) (h2 : secFrame b c) :
    secFrame a c :=
  ⟨h2.1.trans h1.1, h2.2.1.trans h1.2.1, h2.2.2.1.trans h1.2.2.1,
    h2.2.2.2.1.trans h1.2.2.2.1,
    forall₂_trans_of (R := chunkFrame) (fun _ _ _ ha hb => chunkFrame_trans ha hb)
      h1.2.2.2.2 h2.2.2.2.2⟩

theorem docFrame_trans {a b c : Document} (h1 : docFrame a b) (h2 : docFrame b c) :
    docFrame a c :=
  ⟨h2.1.trans h1.1,
    forall₂_trans_of (R := secFrame) (fun _ _ _ ha hb => secFrame_trans ha hb) h1.2 h2.2⟩

theorem secSame_imp_secFrame {a b : Section} (h : secSame a b) : secFrame a b := h.1

theorem docSame_imp_docFrame {a b : Document} (h : docSame a b) : docFrame a b :=
  ⟨h.1, h.2.imp fun _ _ => secSame_imp_secFrame⟩

theorem chunkFrame_writeScore (q : List ℚ) (c : Chunk) : chunkFrame c (writeScore q c) :=
  ⟨rfl, rfl, rfl, rfl⟩

theorem scoreChunks_frame (q : List ℚ) (cs : List Chunk) :
    List.Forall₂ chunkFrame cs (scoreChunks q cs).1 := by
  induction cs with
  | nil => exact List.Forall₂.nil
  | cons c cs ih =>
    by_cases h : c.embedding.length = q.length
    · simp only [scoreChunks, scoreChunk, h, if_true]
      exact List.Forall₂.cons (chunkFrame_writeScore q c) ih
    · simp only [scoreChunks, scoreChunk, h, if_false]
      exact List.Forall₂.cons (chunkFrame_refl c)
        (List.forall₂_same.2 fun x _ => chunkFrame_refl x)

theorem scoreSections_frame (q : List ℚ) (ss : List Section) :
    List.Forall₂ secSame ss (scoreSections q ss).1 := by
  induction ss with
  | nil => exact List.Forall₂.nil
  | cons s ss ih =>
    have hs : secSame s { s with chunks := (scoreChunks q s.chunks).1 } :=
      ⟨⟨rfl, rfl, rfl, rfl, scoreChunks_frame q s.chunks⟩, rfl, rfl⟩
    cases hB : (scoreChunks q s.chunks).2 with
    | true =>
      simp only [scoreSections, hB, if_true]
      exact List.Forall₂.cons hs ih
    | false =>
      simp only [scoreSections, hB, if_false]
      exact List.Forall₂.cons hs (List.forall₂_same.2 fun x _ => secSame_refl x)

theorem scoreDocs_frame (q : List ℚ) (ds : List Document) :
    List.Forall₂ docSame ds (scoreDocs q ds).1 := by
  induction ds with
  | nil => exact List.Forall₂.nil
  | cons d ds ih =>
    have hd : docSame d { d with sections := (scoreSections q d.sections).1 } :=
      ⟨rfl, scoreSections_frame q d.sections⟩
    cases hB : (scoreSections q d.sections).2 with
    | true =>
      simp only [scoreDocs, hB, if_true]
      exact List.Forall₂.cons hd ih
    | false =>
      simp only [scoreDocs, hB, if_false]
      exact List.Forall₂.cons hd
        (List.forall₂_same.2 fun x _ => ⟨rfl, List.forall₂_same.2 fun y _ => secSame_refl y⟩)

/-! ## Lemmas about aggregation -/

instance : IsTotal ℚ fun a b => b ≤ a := ⟨fun a b => le_total b a⟩

instance : IsTrans ℚ fun a b => b ≤ a := ⟨fun _ _ _ h1 h2 => le_trans h2 h1⟩

instance : IsAntisymm ℚ fun a b => b ≤ a := ⟨fun _ _ h1 h2 => le_antisymm h2 h1⟩

theorem sortDescQ_perm (l : List ℚ) : (sortDescQ l).Perm l :=
  List.perm_insertionSort _ l

theorem sortDescQ_sorted (l : List ℚ) : List.Sorted (fun a b => b ≤ a) (sortDescQ l) :=
  List.sorted_insertionSort _ l

theorem sortDescQ_length (l : List ℚ) : (sortDescQ l).length = l.length :=
  (sortDescQ_perm l).length_eq

theorem aggScore_nil (k : Nat) : aggScore k [] = 0 := rfl

theorem aggScore_of_ne_nil {k : Nat} {cs : List Chunk} (hne : cs ≠ []) (hk : 1 ≤ k) :
    aggScore k cs =
      ((sortDescQ (cs.map chunkScore)).take (min k cs.length)).sum /
        ((min k cs.length : Nat) : ℚ) := by
  have hemp : cs.isEmpty = false := by
    cases cs with
    | nil => exact absurd rfl hne
    | cons c cs => rfl
  have hlen : (cs.map chunkScore).length = cs.length := List.length_map cs chunkScore
  have hslen : (sortDescQ (cs.map chunkScore)).length = cs.length := by
    rw [sortDescQ_length, hlen]
  have htake : ((sortDescQ (cs.map chunkScore)).take (min k cs.length)).length
      = min k cs.length := by
    rw [List.length_take, hslen]
    exact Nat.min_eq_left (Nat.min_le_right k cs.length)
  have hpos : 1 ≤ min k cs.length := by
    have : 1 ≤ cs.length := by
      cases cs with
      | nil => exact absurd rfl hne
      | cons c cs => exact Nat.succ_le_succ (Nat.zero_le _)
    exact le_min hk this
  have hne2 : ((sortDescQ (cs.map chunkScore)).take (min k cs.length)).isEmpty = false := by
    rw [List.isEmpty_eq_false_iff_exists_mem]
    have : 0 < ((sortDescQ (cs.map chunkScore)).take (min k cs.length)).length := by
      omega
    rcases List.exists_mem_of_length_pos this with ⟨a, ha⟩
    exact ⟨a, ha⟩
  simp only [aggScore, hemp, Bool.false_eq_true, if_false, hlen, hne2, htake]

theorem aggregateSection_chunks (k : Nat) (s : Section) :
    (aggregateSection k s).chunks = s.chunks := rfl

theorem aggregateSection_score (k : Nat) (s : Section) :
    (aggregateSection k s).aggregated_score = some (aggScore k s.chunks) := rfl

theorem secFrame_aggregate (k : Nat) (s : Section) : secFrame s (aggregateSection k s) :=
  ⟨rfl, rfl, rfl, rfl, List.forall₂_same.2 fun c _ => chunkFrame_refl c⟩

theorem forall₂_map_right {R : α → α → Prop} {f : α → α} (h : ∀ a, R a (f a)) :
    ∀ l : List α, List.Forall₂ R l (l.map f)
  | [] => List.Forall₂.nil
  | a :: l => List.Forall₂.cons (h a) (forall₂_map_right h l)

theorem aggregateDocs_frame (k : Nat) (ds : List Document) :
    List.Forall₂ docFrame ds (aggregateDocs k ds) := by
  induction ds with
  | nil => exact List.Forall₂.nil
  | cons d ds ih =>
    refine List.Forall₂.cons ⟨rfl, ?_⟩ ih
    show List.Forall₂ secFrame d.sections (d.sections.map (aggregateSection k))
    exact forall₂_map_right (secFrame_aggregate k) d.sections

/-! ## Lemmas about the global stable sort -/

theorem sortedIndexed_perm (secs : List Section) :
    (sortedIndexed secs).Perm (indexedScored secs) :=
  List.perm_insertionSort _ _

theorem sortedIndexed_sorted (secs : List Section) :
    List.Sorted secBefore (sortedIndexed secs) :=
  List.sorted_insertionSort _ _

theorem indexedScored_pairwise_fst (secs : List Section) :
    (indexedScored secs).Pairwise fun a b => a.1 < b.1 :=
  (withIdx_pairwise_fst 0 secs).filter _

theorem sortedIndexed_pairwise_ne (secs : List Section) :
    (sortedIndexed secs).Pairwise fun a b => a.1 ≠ b.1 := by
  have h1 : (indexedScored secs).Pairwise fun a b => a.1 ≠ b.1 :=
    (indexedScored_pairwise_fst secs).imp fun h => Nat.ne_of_lt h
  exact ((sortedIndexed_perm secs).pairwise_iff fun h => Ne.symm h).2 h1

/-- The complete characterisation of the stable descending sort: along the
sorted output, scores strictly decrease or scores tie and the original
flattened positions strictly increase. -/
theorem sortedIndexed_pairwise_lex (secs : List Section) :
    (sortedIndexed secs).Pairwise fun a b =>
      secScore b.2 < secScore a.2 ∨ (secScore a.2 = secScore b.2 ∧ a.1 < b.1) := by
  have h := (sortedIndexed_sorted secs).and (sortedIndexed_pairwise_ne secs)
  refine h.imp fun hab => ?_
  rcases hab with ⟨hb | ⟨heq, hle⟩, hne⟩
  · exact Or.inl hb
  · exact Or.inr ⟨heq, Nat.lt_of_le_of_ne hle hne⟩

theorem mem_indexedScored {secs : List Section} {p : Nat × Section}
    (h : p ∈ indexedScored secs) : secs[p.1]? = some p.2 := by
  have h1 : p ∈ withIdx 0 secs := (List.mem_filter.1 h).1
  rcases mem_withIdx h1 with ⟨i, hi, hg⟩
  rw [hi, Nat.zero_add]
  exact hg

theorem mem_sortedIndexed {secs : List Section} {p : Nat × Section}
    (h : p ∈ sortedIndexed secs) : secs[p.1]? = some p.2 :=
  mem_indexedScored (((sortedIndexed_perm secs).mem_iff).1 h)

theorem indexedScored_of_all_some {secs : List Section}
    (h : ∀ s ∈ secs, s.aggregated_score.isSome) :
    indexedScored secs = withIdx 0 secs := by
  refine List.filter_eq_self.2 fun p hp => ?_
  rcases mem_withIdx hp with ⟨i, _, hg⟩
  exact h p.2 (List.mem_iff_getElem?.2 ⟨i, hg⟩)

theorem sortedIndexed_length_of_all_some {secs : List Section}
    (h : ∀ s ∈ secs, s.aggregated_score.isSome) :
    (sortedIndexed secs).length = secs.length := by
  rw [(sortedIndexed_perm secs).length_eq, indexedScored_of_all_some h,
    withIdx_length]

theorem assignRanks_length (l : List (Nat × Section)) :
    (assignRanks l).length = l.length := by
  unfold assignRanks
  rw [List.length_map, withIdx_length]

theorem assignRanks_getElem? (l : List (Nat × Section)) (i : Nat) :
    (assignRanks l)[i]? = l[i]?.map fun p =>
      { p.2 with rank := some ((i : Int) + 1) } := by
  unfold assignRanks
  rw [List.getElem?_map, withIdx_getElem?, Nat.zero_add]
  cases l[i]? <;> rfl

theorem assignRanks_map_rank (l : List (Nat × Section)) :
    (assignRanks l).map (fun s => s.rank) =
      (List.range l.length).map fun i : Nat => some ((i : Int) + 1) := by
  unfold assignRanks
  rw [List.map_map]
  have h1 : ((fun s => s.rank) ∘ fun p : Nat × (Nat × Section) =>
      ({ p.2.2 with rank := some ((p.1 : Int) + 1) } : Section)) =
      (fun i : Nat => some ((i : Int) + 1)) ∘ fun p : Nat × (Nat × Section) => p.1 := by
    funext p
    rfl
  rw [h1, ← List.map_map, withIdx_map_fst, List.range_eq_range']

/-- Every section of the post-aggregation flattened list carries the
aggregate of its own chunks as its score. -/
theorem mem_scoredAggSections {eng : RankingEngine} {docs : List Document}
    {q : List ℚ} {s : Section} (h : s ∈ scoredAggSections eng docs q) :
    s.aggregated_score = some (aggScore eng.top_k_chunks s.chunks) := by
  unfold scoredAggSections flattenSections aggregateDocs at h
  rcases List.mem_flatMap.1 h with ⟨d, hd, hs⟩
  rcases List.mem_map.1 hd with ⟨d0, _, hd0⟩
  subst hd0
  rcases List.mem_map.1 hs with ⟨s0, _, hs0⟩
  subst hs0
  rfl

theorem scoredAggSections_all_some (eng : RankingEngine) (docs : List Document)
    (q : List ℚ) :
    ∀ s ∈ scoredAggSections eng docs q, s.aggregated_score.isSome := by
  intro s hs
  rw [mem_scoredAggSections hs]
  rfl

theorem rankSectionsGlobally_ok {eng : RankingEngine} {docs : List Document}
    {q : List ℚ} {post : List Document} {ranked : List Section}
    (h : rankSectionsGlobally eng docs q = Except.ok (post, ranked)) :
    (scoreDocs q docs).2 = true ∧
      post = setRanksDocs (rankOf (scoredAggSections eng docs q)) 0
          (aggregateDocs eng.top_k_chunks (scoreDocs q docs).1) ∧
      ranked = assignRanks (sortedIndexed (scoredAggSections eng docs q)) := by
  cases hB : (scoreDocs q docs).2 with
  | true =>
    unfold rankSectionsGlobally at h
    rw [hB] at h
    simp only [if_true, Except.ok.injEq, Prod.mk.injEq] at h
    exact ⟨rfl, h.1.symm, h.2.symm⟩
  | false =>
    unfold rankSectionsGlobally at h
    rw [hB] at h
    simp at h

/-! ## More lemmas about ranked output and rank write-back -/

theorem secFrame_refl (s : Section) : secFrame s s := (secSame_refl s).1

theorem secFrame_applyRank (ro : Nat → Option Int) (j : Nat) (s : Section) :
    secFrame s (applyRank ro j s) := by
  unfold applyRank
  cases ro j with
  | none => exact secFrame_refl s
  | some r =>
    exact ⟨rfl, rfl, rfl, rfl, List.forall₂_same.2 fun c _ => chunkFrame_refl c⟩

theorem setRanksSections_frame (ro : Nat → Option Int) :
    ∀ (j : Nat) (l : List Section), List.Forall₂ secFrame l (setRanksSections ro j l)
  | _, [] => List.Forall₂.nil
  | j, s :: ss =>
    List.Forall₂.cons (secFrame_applyRank ro j s) (setRanksSections_frame ro (j + 1) ss)

theorem setRanksDocs_frame (ro : Nat → Option Int) :
    ∀ (j : Nat) (ds : List Document), List.Forall₂ docFrame ds (setRanksDocs ro j ds)
  | _, [] => List.Forall₂.nil
  | j, d :: ds =>
    List.Forall₂.cons ⟨rfl, setRanksSections_frame ro j d.sections⟩
      (setRanksDocs_frame ro (j + d.sections.length) ds)

theorem mem_assignRanks {l : List (Nat × Section)} {s : Section}
    (h : s ∈ assignRanks l) :
    ∃ (i : Nat) (p : Nat × Section), l[i]? = some p ∧ i < l.length ∧
      s = { p.2 with rank := some ((i : Int) + 1) } := by
  unfold assignRanks at h
  rcases List.mem_map.1 h with ⟨pp, hpp, hs⟩
  rcases mem_withIdx hpp with ⟨i, h1, h2⟩
  rcases List.getElem?_eq_some.1 h2 with ⟨hilen, _⟩
  refine ⟨i, pp.2, h2, hilen, ?_⟩
  rw [← hs, h1, Nat.zero_add]

/-- Along any ranked output the stored section scores are non-increasing. -/
theorem ranked_pairwise_scores (secs : List Section) :
    (assignRanks (sortedIndexed secs)).Pairwise fun a b => secScore b ≤ secScore a := by
  unfold assignRanks
  rw [List.pairwise_map]
  have h := pairwise_withIdx_of_pairwise (sortedIndexed_sorted secs) 0
  refine h.imp ?_
  intro a b hab
  have h2 : secScore b.2.2 ≤ secScore a.2.2 := by
    rcases hab with h | ⟨h, _⟩
    · exact le_of_lt h
    · exact le_of_eq h.symm
  exact h2

/-! ## Concrete inputs used by the witnesses and the counterexample -/

/-- A chunk carrying only a precomputed similarity score, as the Aggregator
sees it. -/
def mkScoredChunk (x : ℚ) : Chunk :=
  { text := "t", source_doc_name := "d.pdf", source_section_title := "s",
    embedding := [], similarity_score := some x }

/-- The spec's aggregation example: chunk scores `[0.9, 0.8, 0.5, 0.1]`. -/
def c1ExampleSection : Section :=
  { title := "E", page_number := 1, source_doc_name := "d.pdf", raw_text := "",
    chunks := [mkScoredChunk (9 / 10), mkScoredChunk (8 / 10),
      mkScoredChunk (5 / 10), mkScoredChunk (1 / 10)] }

def c4ChunkA : Chunk :=
  { text := "a", source_doc_name := "doc.pdf", source_section_title := "M",
    embedding := [1] }

def c4ChunkB : Chunk :=
  { text := "b", source_doc_name := "doc.pdf", source_section_title := "M",
    embedding := [1, 2] }

def c4Sec : Section :=
  { title := "M", page_number := 1, source_doc_name := "doc.pdf", raw_text := "",
    chunks := [c4ChunkA, c4ChunkB] }

/-- A document whose first chunk matches a one-dimensional query but whose
second chunk does not. -/
def c4Doc : Document := { filename := "doc.pdf", sections := [c4Sec] }

/-- The state `rank_sections_globally` leaves behind when it raises on
`c4Doc` with query `[2]`: the first chunk was already scored in place. -/
def c4DocPost : Document :=
  { filename := "doc.pdf",
    sections :=
      [{ c4Sec with chunks := [{ c4ChunkA with similarity_score := some 2 }, c4ChunkB] }] }

def exChunk1 : Chunk :=
  { text := "alpha", source_doc_name := "d.pdf", source_section_title := "S1",
    embedding := [2] }

def exSec1 : Section :=
  { title := "S1", page_number := 1, source_doc_name := "d.pdf", raw_text := "r",
    chunks := [exChunk1] }

def exSec2 : Section :=
  { title := "S2", page_number := 2, source_doc_name := "d.pdf", raw_text := "",
    chunks := [] }

/-- A two-section document (one scored section, one empty section) on which
the whole pipeline succeeds. -/
def exDoc : Document := { filename := "d.pdf", sections := [exSec1, exSec2] }

/-- `exSec1` as the successful run on `exDoc` with query `[1]` leaves it. -/
def exSec1Post : Section :=
  { exSec1 with
    chunks := [{ exChunk1 with similarity_score := some 2 }],
    aggregated_score := some 2, rank := some 1 }

/-- `exSec2` as the successful run on `exDoc` with query `[1]` leaves it. -/
def exSec2Post : Section :=
  { exSec2 with aggregated_score := some 0, rank := some 2 }

/-- The post-state of the successful run on `exDoc` with query `[1]`. -/
def exPost : List Document :=
  [{ filename := "d.pdf", sections := [exSec1Post, exSec2Post] }]

/-- The ranked list of the successful run on `exDoc` with query `[1]`. -/
def exRanked : List Section := [exSec1Post, exSec2Post]

theorem exDoc_run : rankSectionsGlobally {} [exDoc] [1] =
    Except.ok (exPost, exRanked) := by
  norm_num [rankSectionsGlobally, scoreDocs, scoreSections, scoreChunks, scoreChunk,
    npDot, exDoc, exSec1, exSec2, exChunk1, aggregateDocs, aggregateSection, aggScore,
    scoredAggSections, flattenSections, sortedIndexed, indexedScored, withIdx,
    secBefore, secScore, chunkScore, List.insertionSort, List.orderedInsert,
    assignRanks, rankOf, setRanksDocs, setRanksSections, applyRank, List.find?,
    exPost, exRanked, exSec1Post, exSec2Post, sortDescQ]

/-! ## The claims -/

/-- **C1** (confirmed).  For every section with at least one chunk, all of
whose chunks carry similarity scores, and every configured `K ≥ 1`, the
aggregation step stores the arithmetic mean of the largest
`min(K, number of chunks)` chunk scores: there is a selection `tops` of
exactly that many scores, the selection together with the unselected rest is
a permutation of all chunk scores, every selected score dominates every
unselected one, and the stored aggregate is `tops.sum / tops.length`.
Moreover on the spec's example `[0.9, 0.8, 0.5, 0.1]` with `K = 3` the
aggregate is exactly `11/15 = 0.7333…` (floats are modelled by exact
rationals, so equality within `1e-6` holds a fortiori). -/
theorem mean_of_top_k_aggregation :
    (∀ (k : Nat) (s : Section), 1 ≤ k → s.chunks ≠ [] →
        (∀ c ∈ s.chunks, c.similarity_score.isSome) →
        ∃ tops rest : List ℚ,
          tops.length = min k s.chunks.length ∧
          (tops ++ rest).Perm (s.chunks.map chunkScore) ∧
          (∀ a ∈ tops, ∀ b ∈ rest, b ≤ a) ∧
          (aggregateSection k s).aggregated_score =
            some (tops.sum / (tops.length : ℚ))) ∧
      (aggregateSection 3 c1ExampleSection).aggregated_score = some (11 / 15) := by
  constructor
  · intro k s hk hne _hsome
    have hlen : (s.chunks.map chunkScore).length = s.chunks.length :=
      List.length_map s.chunks chunkScore
    refine ⟨(sortDescQ (s.chunks.map chunkScore)).take (min k s.chunks.length),
      (sortDescQ (s.chunks.map chunkScore)).drop (min k s.chunks.length),
      ?_, ?_, ?_, ?_⟩
    · rw [List.length_take, sortDescQ_length, hlen]
      exact Nat.min_eq_left (Nat.min_le_right k s.chunks.length)
    · rw [List.take_append_drop]
      exact sortDescQ_perm _
    · have hs := sortDescQ_sorted (s.chunks.map chunkScore)
      rw [← List.take_append_drop (min k s.chunks.length)
        (sortDescQ (s.chunks.map chunkScore))] at hs
      have h3 := (List.pairwise_append.1 hs).2.2
      intro a ha b hb
      exact h3 a ha b hb
    · rw [aggregateSection_score, aggScore_of_ne_nil hne hk]
      have htake : ((sortDescQ (s.chunks.map chunkScore)).take
          (min k s.chunks.length)).length = min k s.chunks.length := by
        rw [List.length_take, sortDescQ_length, hlen]
        exact Nat.min_eq_left (Nat.min_le_right k s.chunks.length)
      rw [htake]
  · rw [aggregateSection_score]
    norm_num [aggScore, c1ExampleSection, mkScoredChunk, chunkScore, sortDescQ,
      List.insertionSort, List.orderedInsert]

theorem mean_of_top_k_aggregation_witness :
    ∃ tops rest : List ℚ,
      tops.length = min 3 c1ExampleSection.chunks.length ∧
      (tops ++ rest).Perm (c1ExampleSection.chunks.map chunkScore) ∧
      (∀ a ∈ tops, ∀ b ∈ rest, b ≤ a) ∧
      (aggregateSection 3 c1ExampleSection).aggregated_score =
        some (tops.sum / (tops.length : ℚ)) :=
  mean_of_top_k_aggregation.1 3 c1ExampleSection (by decide) (by decide) (by decide)

/-- The run on `c4Doc` with query `[2]` raises after scoring the first
chunk, leaving exactly the `c4DocPost` state behind. -/
theorem c4Doc_run : rankSectionsGlobally {} [c4Doc] [2] =
    Except.error (RankError.dimensionMismatch, [c4DocPost]) := by
  norm_num [rankSectionsGlobally, scoreDocs, scoreSections, scoreChunks, scoreChunk,
    npDot, c4Doc, c4Sec, c4ChunkA, c4ChunkB, c4DocPost]

/-- **C4** (corrected), counterexample.  On `c4Doc` (first chunk matches the
one-dimensional query `[2]`, second chunk does not) the run does fail with
the dimension-mismatch error, but the state it leaves behind is `c4DocPost`,
not the untouched input: the first chunk's `similarity_score` was already
written before the failing chunk was reached, so "no chunk or section score
is left modified" is false. -/
theorem dimension_mismatch_no_mutation_counterexample :
    rankSectionsGlobally {} [c4Doc] [2] =
        Except.error (RankError.dimensionMismatch, [c4DocPost]) ∧
      c4DocPost ≠ c4Doc ∧
      ¬ rankSectionsGlobally {} [c4Doc] [2] =
          Except.error (RankError.dimensionMismatch, [c4Doc]) := by
  have h2 : c4DocPost ≠ c4Doc := by decide
  refine ⟨c4Doc_run, h2, ?_⟩
  intro h
  rw [c4Doc_run] at h
  simp only [Except.error.injEq, Prod.mk.injEq, List.cons.injEq, and_true] at h
  exact h2 h.2

/-- **C4** (corrected), amended claim.  If the query vector's length differs
from the length of some chunk's embedding, `rank_sections_globally` raises
the dimension-mismatch error immediately — no ranked result is returned, and
every section's `aggregated_score` and `rank` are untouched — but chunks
visited before the failing chunk keep their freshly written similarity
scores (`docSame` lets exactly the chunks' `similarity_score` differ and
nothing else). -/
theorem dimension_mismatch_failfast (eng : RankingEngine) (docs : List Document)
    (q : List ℚ)
    (h : ∃ d ∈ docs, ∃ s ∈ d.sections, ∃ c ∈ s.chunks,
      c.embedding.length ≠ q.length) :
    ∃ post : List Document,
      rankSectionsGlobally eng docs q =
          Except.error (RankError.dimensionMismatch, post) ∧
        List.Forall₂ docSame docs post := by
  have hB : (scoreDocs q docs).2 = false := by
    cases hb : (scoreDocs q docs).2 with
    | false => rfl
    | true =>
      exfalso
      rcases h with ⟨d, hd, s, hs, c, hc, hlen⟩
      exact hlen ((scoreDocs_snd_true_iff q docs).1 hb d hd s hs c hc)
  refine ⟨(scoreDocs q docs).1, ?_, scoreDocs_frame q docs⟩
  unfold rankSectionsGlobally
  rw [hB]
  simp

theorem dimension_mismatch_failfast_witness :
    ∃ post : List Document,
      rankSectionsGlobally {} [c4Doc] [2] =
          Except.error (RankError.dimensionMismatch, post) ∧
        List.Forall₂ docSame [c4Doc] post :=
  dimension_mismatch_failfast {} [c4Doc] [2] (by decide)

/-- **C7** (confirmed).  The whole core is embedded as pure functions of the
documents, the query vector and the configuration — the Python code performs
no input/output, uses no randomness and consults no global mutable state
while ranking — so two runs on equal inputs return equal post-states, equal
ranked orders (including all chunk and section scores carried on the
sections) and equal analysis records. -/
theorem ranking_deterministic (eng : RankingEngine) (docs docs' : List Document)
    (q q' : List ℚ) (hd : docs = docs') (hq : q = q') :
    rankSectionsGlobally eng docs q = rankSectionsGlobally eng docs' q' ∧
      ∀ ranked ranked' : List Section, ranked = ranked' →
        performSubSectionAnalysis eng ranked = performSubSectionAnalysis eng ranked' := by
  subst hd
  subst hq
  exact ⟨rfl, fun _ _ h => by rw [h]⟩

theorem ranking_deterministic_witness :
    rankSectionsGlobally {} [exDoc] [1] = rankSectionsGlobally {} [exDoc] [1] ∧
      ∀ ranked ranked' : List Section, ranked = ranked' →
        performSubSectionAnalysis {} ranked = performSubSectionAnalysis {} ranked' :=
  ranking_deterministic {} [exDoc] [exDoc] [1] [1] rfl rfl

/-- Inverting the error branch of `rankSectionsGlobally`: the run raised,
the error is the dimension mismatch, and the state left behind is the
partially scored document list. -/
theorem rankSectionsGlobally_error {eng : RankingEngine} {docs : List Document}
    {q : List ℚ} {e : RankError} {post : List Document}
    (h : rankSectionsGlobally eng docs q = Except.error (e, post)) :
    (scoreDocs q docs).2 = false ∧ e = RankError.dimensionMismatch ∧
      post = (scoreDocs q docs).1 := by
  cases hB : (scoreDocs q docs).2 with
  | true =>
    unfold rankSectionsGlobally at h
    rw [hB] at h
    simp at h
  | false =>
    unfold rankSectionsGlobally at h
    rw [hB] at h
    simp only [Bool.false_eq_true, if_false, Except.error.injEq, Prod.mk.injEq] at h
    refine ⟨rfl, ?_, h.2.symm⟩
    cases e
    rfl

/-- **C10** (confirmed).  For every input — whether the run succeeds or
raises the dimension-mismatch error — the ranking call changes at most the
chunks' `similarity_score` and the sections' `aggregated_score` and `rank`:
positionally, every document keeps its filename and its sections in order,
every section keeps its title, page number, source document name, raw text
and its chunks in order, and every chunk keeps its text, source fields and
embedding (`docFrame` asserts exactly this).  On the error branch the
stronger `docSame` holds: there additionally every `aggregated_score` and
`rank` is untouched, and only chunk similarity scores may have been
written.  `perform_sub_section_analysis` is embedded as a pure function
because its Python body only reads fields and builds fresh lists, mutating
nothing. -/
theorem ranking_frame (eng : RankingEngine) (docs : List Document) (q : List ℚ) :
    (∀ (post : List Document) (ranked : List Section),
        rankSectionsGlobally eng docs q = Except.ok (post, ranked) →
        List.Forall₂ docFrame docs post) ∧
      ∀ (e : RankError) (post : List Document),
        rankSectionsGlobally eng docs q = Except.error (e, post) →
        List.Forall₂ docSame docs post := by
  constructor
  · intro post ranked h
    rcases rankSectionsGlobally_ok h with ⟨_, hpost, _⟩
    subst hpost
    have h1 : List.Forall₂ docFrame docs (scoreDocs q docs).1 :=
      (scoreDocs_frame q docs).imp fun _ _ hs => docSame_imp_docFrame hs
    have h2 := aggregateDocs_frame eng.top_k_chunks (scoreDocs q docs).1
    have h3 := setRanksDocs_frame (rankOf (scoredAggSections eng docs q)) 0
      (aggregateDocs eng.top_k_chunks (scoreDocs q docs).1)
    exact forall₂_trans_of (R := docFrame) (fun _ _ _ ha hb => docFrame_trans ha hb)
      (forall₂_trans_of (R := docFrame) (fun _ _ _ ha hb => docFrame_trans ha hb) h1 h2) h3
  · intro e post h
    rcases rankSectionsGlobally_error h with ⟨_, _, hpost⟩
    subst hpost
    exact scoreDocs_frame q docs

theorem ranking_frame_witness :
    List.Forall₂ docFrame [exDoc] exPost ∧
      List.Forall₂ docSame [c4Doc] [c4DocPost] :=
  ⟨(ranking_frame {} [exDoc] [1]).1 exPost exRanked exDoc_run,
    (ranking_frame {} [c4Doc] [2]).2 RankError.dimensionMismatch [c4DocPost] c4Doc_run⟩

theorem forall₂_append_of {R : α → α → Prop} :
    ∀ {l₁ l₂ l₁' l₂' : List α}, List.Forall₂ R l₁ l₁' → List.Forall₂ R l₂ l₂' →
      List.Forall₂ R (l₁ ++ l₂) (l₁' ++ l₂')
  | _, _, _, _, List.Forall₂.nil, h₂ => h₂
  | _, _, _, _, List.Forall₂.cons h t, h₂ =>
    List.Forall₂.cons h (forall₂_append_of t h₂)

/-- Positionally framed document lists have positionally framed flattened
section lists. -/
theorem flatten_forall₂ {ds ds' : List Document}
    (h : List.Forall₂ docFrame ds ds') :
    List.Forall₂ secFrame (flattenSections ds) (flattenSections ds') := by
  induction h with
  | nil => exact List.Forall₂.nil
  | cons hd _ ih =>
    simp only [flattenSections, List.flatMap_cons]
    exact forall₂_append_of hd.2 ih

theorem docs_to_scoredAgg_forall₂ (eng : RankingEngine) (docs : List Document)
    (q : List ℚ) :
    List.Forall₂ docFrame docs
      (aggregateDocs eng.top_k_chunks (scoreDocs q docs).1) := by
  have h1 : List.Forall₂ docFrame docs (scoreDocs q docs).1 :=
    (scoreDocs_frame q docs).imp fun _ _ hs => docSame_imp_docFrame hs
  have h2 := aggregateDocs_frame eng.top_k_chunks (scoreDocs q docs).1
  exact forall₂_trans_of (R := docFrame) (fun _ _ _ ha hb => docFrame_trans ha hb) h1 h2

theorem scoredAggSections_forall₂ (eng : RankingEngine) (docs : List Document)
    (q : List ℚ) :
    List.Forall₂ secFrame (flattenSections docs) (scoredAggSections eng docs q) :=
  flatten_forall₂ (docs_to_scoredAgg_forall₂ eng docs q)

theorem scoredAggSections_length (eng : RankingEngine) (docs : List Document)
    (q : List ℚ) :
    (scoredAggSections eng docs q).length = (flattenSections docs).length :=
  (scoredAggSections_forall₂ eng docs q).length_eq.symm

/-- **C2** (confirmed).  The ranked output is sorted by non-increasing
`aggregated_score` (pairwise, hence in particular for adjacent pairs), and
the sort is exactly the stable descending sort of the flattened collection:
along the sorted tagged list, either scores strictly decrease or they tie
and the original flattened positions strictly increase (equal-score sections
keep their flattened input order); each tag `p` points back to the section
at flattened position `p.1` of the sort input, which is positionally framed
over the flattened input documents (documents in input order, sections in
stored order). -/
theorem global_sort_descending_stable (eng : RankingEngine) (docs : List Document)
    (q : List ℚ) (post : List Document) (ranked : List Section)
    (h : rankSectionsGlobally eng docs q = Except.ok (post, ranked)) :
    ranked.Pairwise (fun a b => secScore b ≤ secScore a) ∧
      (sortedIndexed (scoredAggSections eng docs q)).Pairwise
        (fun a b => secScore b.2 < secScore a.2 ∨
          (secScore a.2 = secScore b.2 ∧ a.1 < b.1)) ∧
      (∀ p ∈ sortedIndexed (scoredAggSections eng docs q),
        (scoredAggSections eng docs q)[p.1]? = some p.2) ∧
      List.Forall₂ secFrame (flattenSections docs) (scoredAggSections eng docs q) := by
  rcases rankSectionsGlobally_ok h with ⟨_, _, hranked⟩
  subst hranked
  exact ⟨ranked_pairwise_scores _, sortedIndexed_pairwise_lex _,
    fun p hp => mem_sortedIndexed hp, scoredAggSections_forall₂ eng docs q⟩

theorem global_sort_descending_stable_witness :
    exRanked.Pairwise (fun a b => secScore b ≤ secScore a) ∧
      (sortedIndexed (scoredAggSections {} [exDoc] [1])).Pairwise
        (fun a b => secScore b.2 < secScore a.2 ∨
          (secScore a.2 = secScore b.2 ∧ a.1 < b.1)) ∧
      (∀ p ∈ sortedIndexed (scoredAggSections {} [exDoc] [1]),
        (scoredAggSections {} [exDoc] [1])[p.1]? = some p.2) ∧
      List.Forall₂ secFrame (flattenSections [exDoc])
        (scoredAggSections {} [exDoc] [1]) :=
  global_sort_descending_stable {} [exDoc] [1] exPost exRanked exDoc_run

/-- **C3** (confirmed).  A successful run ranks every flattened input
section exactly once: the output has exactly `N` sections (`N` the number of
sections across all input documents), the flattened positions carried
through the sort are a permutation of `{0, …, N-1}` (no section dropped or
duplicated), and the stored ranks along the output are exactly
`some 1, some 2, …, some N` in order. -/
theorem rank_totality_uniqueness (eng : RankingEngine) (docs : List Document)
    (q : List ℚ) (post : List Document) (ranked : List Section)
    (h : rankSectionsGlobally eng docs q = Except.ok (post, ranked)) :
    ranked.length = (flattenSections docs).length ∧
      ((sortedIndexed (scoredAggSections eng docs q)).map fun p => p.1).Perm
        (List.range (flattenSections docs).length) ∧
      ranked.map (fun s => s.rank) =
        (List.range ranked.length).map fun i : Nat => some ((i : Int) + 1) := by
  rcases rankSectionsGlobally_ok h with ⟨_, _, hranked⟩
  subst hranked
  have hsome := scoredAggSections_all_some eng docs q
  have hlen : (sortedIndexed (scoredAggSections eng docs q)).length =
      (flattenSections docs).length := by
    rw [sortedIndexed_length_of_all_some hsome, scoredAggSections_length]
  refine ⟨by rw [assignRanks_length, hlen], ?_, ?_⟩
  · have hperm : ((sortedIndexed (scoredAggSections eng docs q)).map fun p => p.1).Perm
        ((indexedScored (scoredAggSections eng docs q)).map fun p => p.1) :=
      (sortedIndexed_perm _).map _
    rw [indexedScored_of_all_some hsome, withIdx_map_fst, ← List.range_eq_range',
      scoredAggSections_length] at hperm
    exact hperm
  · rw [assignRanks_map_rank, assignRanks_length]

theorem rank_totality_uniqueness_witness :
    exRanked.length = (flattenSections [exDoc]).length ∧
      ((sortedIndexed (scoredAggSections {} [exDoc] [1])).map fun p => p.1).Perm
        (List.range (flattenSections [exDoc]).length) ∧
      exRanked.map (fun s => s.rank) =
        (List.range exRanked.length).map fun i : Nat => some ((i : Int) + 1) :=
  rank_totality_uniqueness {} [exDoc] [1] exPost exRanked exDoc_run

/-! ## Lemmas about the per-section chunk sort and the analysis pass -/

theorem withIdx_mem_of_getElem? {l : List α} {i : Nat} {a : α} (j : Nat)
    (h : l[i]? = some a) : (j + i, a) ∈ withIdx j l := by
  refine List.mem_iff_getElem?.2 ⟨i, ?_⟩
  rw [withIdx_getElem?, h]
  rfl

theorem sortedChunksOf_length (s : Section) :
    (sortedChunksOf s).length = s.chunks.length := by
  unfold sortedChunksOf
  rw [List.length_map, (List.perm_insertionSort _ _).length_eq, withIdx_length]

/-- The head of the stable descending chunk sort is the earliest
highest-scoring chunk of the section: it sits at some position `j` of the
stored chunk list, its score dominates every chunk's score, and every chunk
strictly before position `j` scores strictly less. -/
theorem sortedChunksOf_head_spec {s : Section} {top : Chunk} {rest : List Chunk}
    (h : sortedChunksOf s = top :: rest) :
    ∃ j : Nat, s.chunks[j]? = some top ∧
      (∀ c ∈ s.chunks, chunkScore c ≤ chunkScore top) ∧
      ∀ (i : Nat) (c : Chunk), i < j → s.chunks[i]? = some c →
        chunkScore c < chunkScore top := by
  unfold sortedChunksOf at h
  cases hL : List.insertionSort chunkBefore (withIdx 0 s.chunks) with
  | nil => rw [hL] at h; cases h
  | cons p L' =>
    rw [hL] at h
    simp only [List.map_cons, List.cons.injEq] at h
    have hsorted : List.Sorted chunkBefore (p :: L') := by
      rw [← hL]; exact List.sorted_insertionSort _ _
    have hrel := List.rel_of_sorted_cons hsorted
    have hperm : (p :: L').Perm (withIdx 0 s.chunks) := by
      rw [← hL]; exact List.perm_insertionSort _ _
    have hmemp : p ∈ withIdx 0 s.chunks :=
      hperm.mem_iff.1 (List.mem_cons_self p L')
    rcases mem_withIdx hmemp with ⟨i0, hp1, hp2⟩
    refine ⟨p.1, ?_, ?_, ?_⟩
    · rw [hp1, Nat.zero_add, hp2, h.1]
    · intro c hc
      rcases List.mem_iff_getElem?.1 hc with ⟨i, hi⟩
      have hmem : (i, c) ∈ p :: L' := by
        refine hperm.mem_iff.2 ?_
        have := withIdx_mem_of_getElem? 0 hi
        rwa [Nat.zero_add] at this
      rcases List.mem_cons.1 hmem with heq | hmem'
      · rw [← h.1, ← heq]
      · rcases hrel (i, c) hmem' with hlt | ⟨heq, _⟩
        · rw [← h.1]; exact le_of_lt hlt
        · rw [← h.1, heq]
    · intro i c hij hi
      have hmem : (i, c) ∈ p :: L' := by
        refine hperm.mem_iff.2 ?_
        have := withIdx_mem_of_getElem? 0 hi
        rwa [Nat.zero_add] at this
      rcases List.mem_cons.1 hmem with heq | hmem'
      · exfalso
        have : p.1 = i := by rw [← heq]
        omega
      · rcases hrel (i, c) hmem' with hlt | ⟨_, hle⟩
        · rw [← h.1]; exact hlt
        · exfalso
          have : p.1 ≤ i := hle
          omega

theorem analyzeSection_isSome (s : Section) :
    (analyzeSection s).isSome = !s.chunks.isEmpty := by
  unfold analyzeSection
  cases hemp : s.chunks.isEmpty with
  | true => rfl
  | false =>
    have hne : s.chunks ≠ [] := List.isEmpty_eq_false.1 hemp
    cases hsc : sortedChunksOf s with
    | nil =>
      exfalso
      have := sortedChunksOf_length s
      rw [hsc] at this
      cases hc : s.chunks with
      | nil => exact hne hc
      | cons a l => rw [hc] at this; simp at this
    | cons top r => simp

theorem analyzeSection_eq_some {s : Section} {rec : AnalysisRecord}
    (h : analyzeSection s = some rec) :
    s.chunks ≠ [] ∧ ∃ (top : Chunk) (r2 : List Chunk),
      sortedChunksOf s = top :: r2 ∧
      rec = { source_document := s.source_doc_name, section_title := s.title,
              importance_rank := s.rank, refined_text_snippet := top.text,
              snippet_relevance_score := pyRound4 (chunkScore top) } := by
  unfold analyzeSection at h
  cases hemp : s.chunks.isEmpty with
  | true => rw [hemp] at h; cases h
  | false =>
    rw [hemp] at h
    simp only [Bool.false_eq_true, if_false] at h
    cases hsc : sortedChunksOf s with
    | nil => rw [hsc] at h; cases h
    | cons top r =>
      rw [hsc] at h
      refine ⟨List.isEmpty_eq_false.1 hemp, top, r, rfl, ?_⟩
      exact (Option.some.inj h).symm

theorem length_filterMap_eq_filter {f : α → Option β} {p : α → Bool}
    (hfp : ∀ a, (f a).isSome = p a) :
    ∀ l : List α, (l.filterMap f).length = (l.filter p).length
  | [] => rfl
  | a :: l => by
    cases hf : f a with
    | none =>
      have hp : p a = false := by rw [← hfp a, hf]; rfl
      rw [List.filterMap_cons_none hf, List.filter_cons_of_neg (by rw [hp]; exact Bool.false_ne_true)]
      exact length_filterMap_eq_filter hfp l
    | some b =>
      have hp : p a = true := by rw [← hfp a, hf]; rfl
      rw [List.filterMap_cons_some hf, List.filter_cons_of_pos hp]
      simp only [List.length_cons]
      rw [length_filterMap_eq_filter hfp l]

theorem assignRanks_pairwise_rank_lt (l : List (Nat × Section)) :
    (assignRanks l).Pairwise fun a b => ∃ x y : Int, a.rank = some x ∧
      b.rank = some y ∧ x < y := by
  unfold assignRanks
  rw [List.pairwise_map]
  refine (withIdx_pairwise_fst 0 l).imp ?_
  intro a b hab
  exact ⟨(a.1 : Int) + 1, (b.1 : Int) + 1, rfl, rfl, by omega⟩

/-- **C5** (confirmed).  The analysis pass emits exactly one record per
non-empty section among the first `top_n_sections_for_analysis` ranked
sections (empty sections contribute nothing, so there may be fewer records
than the bound); each record carries the section's rank and source fields,
and its snippet is the text of the earliest highest-scoring chunk of the
section — it sits at some stored position `j`, no chunk scores more, every
chunk strictly before position `j` scores strictly less — with the chunk's
score rounded to 4 decimal places; and along the record list the ranks
strictly increase (records in ascending rank order). -/
theorem sub_section_analysis_spec (eng : RankingEngine) (docs : List Document)
    (q : List ℚ) (post : List Document) (ranked : List Section)
    (h : rankSectionsGlobally eng docs q = Except.ok (post, ranked)) :
    (performSubSectionAnalysis eng ranked).length =
        ((ranked.take eng.top_n_sections_for_analysis).filter
          fun s => !s.chunks.isEmpty).length ∧
      (∀ rec ∈ performSubSectionAnalysis eng ranked,
        ∃ s ∈ ranked.take eng.top_n_sections_for_analysis,
          s.chunks ≠ [] ∧ rec.importance_rank = s.rank ∧
            rec.source_document = s.source_doc_name ∧
            rec.section_title = s.title ∧
            ∃ (j : Nat) (top : Chunk),
              s.chunks[j]? = some top ∧
                rec.refined_text_snippet = top.text ∧
                rec.snippet_relevance_score = pyRound4 (chunkScore top) ∧
                (∀ c ∈ s.chunks, chunkScore c ≤ chunkScore top) ∧
                ∀ (i : Nat) (c : Chunk), i < j → s.chunks[i]? = some c →
                  chunkScore c < chunkScore top) ∧
      (performSubSectionAnalysis eng ranked).Pairwise
        fun r1 r2 => ∃ x y : Int, r1.importance_rank = some x ∧
          r2.importance_rank = some y ∧ x < y := by
  refine ⟨length_filterMap_eq_filter analyzeSection_isSome _, ?_, ?_⟩
  · intro rec hrec
    rcases List.mem_filterMap.1 hrec with ⟨s, hs, hf⟩
    rcases analyzeSection_eq_some hf with ⟨hne, top, r2, hsc, hreceq⟩
    rcases sortedChunksOf_head_spec hsc with ⟨j, hj, hmax, hstrict⟩
    subst hreceq
    exact ⟨s, hs, hne, rfl, rfl, rfl, j, top, hj, rfl, rfl, hmax, hstrict⟩
  · rcases rankSectionsGlobally_ok h with ⟨_, _, hranked⟩
    subst hranked
    unfold performSubSectionAnalysis
    rw [List.pairwise_filterMap]
    have hpw := List.Pairwise.sublist
      (List.take_sublist eng.top_n_sections_for_analysis _)
      (assignRanks_pairwise_rank_lt (sortedIndexed (scoredAggSections eng docs q)))
    refine hpw.imp ?_
    intro a b hab r1 h1 r2 h2
    rcases hab with ⟨x, y, hax, hby, hxy⟩
    rcases analyzeSection_eq_some (Option.mem_def.1 h1) with ⟨_, t1, r1', _, he1⟩
    rcases analyzeSection_eq_some (Option.mem_def.1 h2) with ⟨_, t2, r2', _, he2⟩
    subst he1
    subst he2
    exact ⟨x, y, hax, hby, hxy⟩

theorem sub_section_analysis_spec_witness :
    (performSubSectionAnalysis {} exRanked).length =
        ((exRanked.take (5 : Nat)).filter fun s => !s.chunks.isEmpty).length ∧
      (∀ rec ∈ performSubSectionAnalysis {} exRanked,
        ∃ s ∈ exRanked.take (5 : Nat),
          s.chunks ≠ [] ∧ rec.importance_rank = s.rank ∧
            rec.source_document = s.source_doc_name ∧
            rec.section_title = s.title ∧
            ∃ (j : Nat) (top : Chunk),
              s.chunks[j]? = some top ∧
                rec.refined_text_snippet = top.text ∧
                rec.snippet_relevance_score = pyRound4 (chunkScore top) ∧
                (∀ c ∈ s.chunks, chunkScore c ≤ chunkScore top) ∧
                ∀ (i : Nat) (c : Chunk), i < j → s.chunks[i]? = some c →
                  chunkScore c < chunkScore top) ∧
      (performSubSectionAnalysis {} exRanked).Pairwise
        fun r1 r2 => ∃ x y : Int, r1.importance_rank = some x ∧
          r2.importance_rank = some y ∧ x < y :=
  sub_section_analysis_spec {} [exDoc] [1] exPost exRanked exDoc_run

/-- **C6** (confirmed).  Empty inputs are not errors: the empty document
list yields an empty ranking (with empty post-state) and an empty analysis
list; a section with zero chunks gets `aggregated_score = some 0`; and in
any successful run every ranked section (in particular every empty one)
carries a valid rank in `{1, …, N}`, while a section with zero chunks sorts
strictly below every section with a positive aggregated score. -/
theorem empty_inputs_not_errors :
    (∀ (eng : RankingEngine) (q : List ℚ),
        rankSectionsGlobally eng [] q = Except.ok ([], [])) ∧
      (∀ eng : RankingEngine, performSubSectionAnalysis eng [] = []) ∧
      (∀ (k : Nat) (s : Section), s.chunks = [] →
          (aggregateSection k s).aggregated_score = some 0) ∧
      ∀ (eng : RankingEngine) (docs : List Document) (q : List ℚ)
        (post : List Document) (ranked : List Section),
        rankSectionsGlobally eng docs q = Except.ok (post, ranked) →
        (∀ s ∈ ranked, ∃ r : Int, s.rank = some r ∧ 1 ≤ r ∧
            r ≤ (ranked.length : Int)) ∧
          ∀ (i j : Nat) (hi : i < ranked.length) (hj : j < ranked.length),
            (ranked.get ⟨i, hi⟩).chunks = [] →
            0 < secScore (ranked.get ⟨j, hj⟩) → j < i := by
  refine ⟨fun eng q => rfl, fun eng => by simp [performSubSectionAnalysis], ?_, ?_⟩
  · intro k s hch
    rw [aggregateSection_score, hch]
    rfl
  · intro eng docs q post ranked h
    rcases rankSectionsGlobally_ok h with ⟨_, _, hranked⟩
    constructor
    · intro s hs
      rw [hranked] at hs
      rcases mem_assignRanks hs with ⟨i, p, hget, hilt, hseq⟩
      have hlen : ranked.length =
          (sortedIndexed (scoredAggSections eng docs q)).length := by
        rw [hranked, assignRanks_length]
      exact ⟨(i : Int) + 1, by rw [hseq], by omega, by omega⟩
    · intro i j hi hj hempty hpos
      have hscore0 : secScore (ranked.get ⟨i, hi⟩) = 0 := by
        obtain ⟨x, hxeq⟩ : ∃ x, ranked.get ⟨i, hi⟩ = x := ⟨_, rfl⟩
        have hmem : x ∈ ranked := by
          rw [← hxeq]
          exact ranked.get_mem i hi
        rw [hxeq] at hempty ⊢
        rw [hranked] at hmem
        rcases mem_assignRanks hmem with ⟨i', p, hget, _, hseq⟩
        have hp : p ∈ sortedIndexed (scoredAggSections eng docs q) :=
          List.mem_iff_getElem?.2 ⟨i', hget⟩
        have hp2 : p.2 ∈ scoredAggSections eng docs q :=
          List.mem_iff_getElem?.2 ⟨p.1, mem_sortedIndexed hp⟩
        have hagg := mem_scoredAggSections hp2
        have hch : p.2.chunks = [] := by
          rw [hseq] at hempty
          exact hempty
        have hss : secScore x = secScore p.2 := by
          rw [hseq]
          rfl
        rw [hss, secScore, hagg, hch]
        rfl
      have hpw : ranked.Pairwise fun a b => secScore b ≤ secScore a := by
        rw [hranked]
        exact ranked_pairwise_scores _
      have hmono := List.pairwise_iff_get.1 hpw
      rcases Nat.lt_trichotomy j i with hji | hji | hji
      · exact hji
      · exfalso
        subst hji
        rw [hscore0] at hpos
        exact lt_irrefl 0 hpos
      · exfalso
        have hle := hmono ⟨i, hi⟩ ⟨j, hj⟩ hji
        rw [hscore0] at hle
        exact absurd (lt_of_lt_of_le hpos hle) (lt_irrefl 0)

theorem empty_inputs_not_errors_witness :
    rankSectionsGlobally ({} : RankingEngine) [] [] = Except.ok ([], []) ∧
      (aggregateSection 3 exSec2).aggregated_score = some 0 ∧
      ∀ s ∈ exRanked, ∃ r : Int, s.rank = some r ∧ 1 ≤ r ∧
        r ≤ (exRanked.length : Int) :=
  ⟨empty_inputs_not_errors.1 {} [], empty_inputs_not_errors.2.2.1 3 exSec2 rfl,
    (empty_inputs_not_errors.2.2.2 {} [exDoc] [1] exPost exRanked exDoc_run).1⟩

/-- **C9** (confirmed).  In the ranked output, the section stored at index
`i` carries rank `i + 1`, so indexing the list at `rank - 1` recovers
exactly the section carrying that rank; in particular each analysis record's
`importance_rank` is `i + 1` for the index `i` of its originating section,
which is what the output builder's `ranked_sections[importance_rank - 1]`
lookup relies on. -/
theorem rank_index_correspondence (eng : RankingEngine) (docs : List Document)
    (q : List ℚ) (post : List Document) (ranked : List Section)
    (h : rankSectionsGlobally eng docs q = Except.ok (post, ranked)) :
    (∀ (i : Nat) (hi : i < ranked.length),
        (ranked.get ⟨i, hi⟩).rank = some ((i : Int) + 1)) ∧
      ∀ rec ∈ performSubSectionAnalysis eng ranked,
        ∃ (i : Nat) (hi : i < ranked.length),
          rec.importance_rank = some ((i : Int) + 1) ∧
            (ranked.get ⟨i, hi⟩).rank = some ((i : Int) + 1) ∧
            rec.source_document = (ranked.get ⟨i, hi⟩).source_doc_name ∧
            rec.section_title = (ranked.get ⟨i, hi⟩).title := by
  rcases rankSectionsGlobally_ok h with ⟨_, _, hranked⟩
  have hpart1 : ∀ (i : Nat) (hi : i < ranked.length),
      (ranked.get ⟨i, hi⟩).rank = some ((i : Int) + 1) := by
    intro i hi
    obtain ⟨x, hxeq⟩ : ∃ x, ranked.get ⟨i, hi⟩ = x := ⟨_, rfl⟩
    have hgetopt : ranked[i]? = some x := by
      rw [← hxeq]
      exact List.getElem?_eq_getElem hi
    rw [hxeq]
    rw [hranked, assignRanks_getElem?] at hgetopt
    cases hl : (sortedIndexed (scoredAggSections eng docs q))[i]? with
    | none =>
      rw [hl] at hgetopt
      cases hgetopt
    | some p =>
      rw [hl] at hgetopt
      have hfp := Option.some.inj hgetopt
      rw [← hfp]
  constructor
  · exact hpart1
  · intro rec hrec
    unfold performSubSectionAnalysis at hrec
    rcases List.mem_filterMap.1 hrec with ⟨s, hs, hf⟩
    have hms : s ∈ ranked := List.mem_of_mem_take hs
    rcases List.mem_iff_getElem.1 hms with ⟨i, hi, hgi⟩
    have hgs : ranked.get ⟨i, hi⟩ = s := hgi
    rcases analyzeSection_eq_some hf with ⟨_, top, r2, _, hreceq⟩
    subst hreceq
    refine ⟨i, hi, ?_, hpart1 i hi, ?_, ?_⟩
    · show s.rank = some ((i : Int) + 1)
      rw [← hgs]
      exact hpart1 i hi
    · show s.source_doc_name = (ranked.get ⟨i, hi⟩).source_doc_name
      rw [hgs]
    · show s.title = (ranked.get ⟨i, hi⟩).title
      rw [hgs]

theorem rank_index_correspondence_witness :
    (∀ (i : Nat) (hi : i < exRanked.length),
        (exRanked.get ⟨i, hi⟩).rank = some ((i : Int) + 1)) ∧
      ∀ rec ∈ performSubSectionAnalysis {} exRanked,
        ∃ (i : Nat) (hi : i < exRanked.length),
          rec.importance_rank = some ((i : Int) + 1) ∧
            (exRanked.get ⟨i, hi⟩).rank = some ((i : Int) + 1) ∧
            rec.source_document = (exRanked.get ⟨i, hi⟩).source_doc_name ∧
            rec.section_title = (exRanked.get ⟨i, hi⟩).title :=
  rank_index_correspondence {} [exDoc] [1] exPost exRanked exDoc_run

/-! ## Fixed-point and naturality lemmas for the idempotence claim -/

/-- A chunk that a successful scoring pass has already visited: its
embedding matches the query dimension and it carries exactly the score a
(re)scoring pass would write. -/
def ChunkReady (q : List ℚ) (c : Chunk) : Prop :=
  c.embedding.length = q.length ∧ c.similarity_score = some (npDot c.embedding q)

theorem scoreChunk_fixed {q : List ℚ} {c : Chunk} (h : ChunkReady q c) :
    scoreChunk q c = Except.ok c := by
  obtain ⟨h1, h2⟩ := h
  unfold scoreChunk
  rw [if_pos h1, ← h2]

theorem scoreChunks_fixed {q : List ℚ} :
    ∀ {cs : List Chunk}, (∀ c ∈ cs, ChunkReady q c) → scoreChunks q cs = (cs, true)
  | [], _ => rfl
  | c :: cs, h => by
    have h1 := scoreChunk_fixed (h c (List.mem_cons_self c cs))
    have ih := scoreChunks_fixed fun x hx => h x (List.mem_cons_of_mem c hx)
    simp only [scoreChunks, h1, ih]

theorem scoreSections_fixed {q : List ℚ} :
    ∀ {ss : List Section},
      (∀ s ∈ ss, ∀ c ∈ s.chunks, ChunkReady q c) → scoreSections q ss = (ss, true)
  | [], _ => rfl
  | s :: ss, h => by
    have h1 := scoreChunks_fixed (h s (List.mem_cons_self s ss))
    have ih := scoreSections_fixed fun x hx => h x (List.mem_cons_of_mem s hx)
    simp only [scoreSections, h1, ih, if_true]

theorem scoreDocs_fixed {q : List ℚ} :
    ∀ {ds : List Document},
      (∀ d ∈ ds, ∀ s ∈ d.sections, ∀ c ∈ s.chunks, ChunkReady q c) →
        scoreDocs q ds = (ds, true)
  | [], _ => rfl
  | d :: ds, h => by
    have h1 := scoreSections_fixed (h d (List.mem_cons_self d ds))
    have ih := scoreDocs_fixed fun x hx => h x (List.mem_cons_of_mem d hx)
    simp only [scoreDocs, h1, ih, if_true]

theorem aggregateSection_fixed {k : Nat} {s : Section}
    (h : s.aggregated_score = some (aggScore k s.chunks)) :
    aggregateSection k s = s := by
  unfold aggregateSection
  rw [← h]

theorem aggregateDocs_fixed {k : Nat} {ds : List Document}
    (h : ∀ d ∈ ds, ∀ s ∈ d.sections,
      s.aggregated_score = some (aggScore k s.chunks)) :
    aggregateDocs k ds = ds := by
  unfold aggregateDocs
  calc ds.map (fun d => { d with sections := d.sections.map (aggregateSection k) })
      = ds.map id := by
        refine List.map_congr_left fun d hd => ?_
        have hsec : d.sections.map (aggregateSection k) = d.sections := by
          calc d.sections.map (aggregateSection k) = d.sections.map id :=
            List.map_congr_left fun s hs => aggregateSection_fixed (h d hd s hs)
          _ = d.sections := List.map_id d.sections
        show { d with sections := d.sections.map (aggregateSection k) } = d
        rw [hsec]
    _ = ds := List.map_id ds

theorem applyRank_chunks (ro : Nat → Option Int) (j : Nat) (s : Section) :
    (applyRank ro j s).chunks = s.chunks := by
  unfold applyRank
  cases ro j <;> rfl

theorem applyRank_agg (ro : Nat → Option Int) (j : Nat) (s : Section) :
    (applyRank ro j s).aggregated_score = s.aggregated_score := by
  unfold applyRank
  cases ro j <;> rfl

theorem applyRank_secScore (ro : Nat → Option Int) (j : Nat) (s : Section) :
    secScore (applyRank ro j s) = secScore s := by
  unfold secScore
  rw [applyRank_agg]

theorem applyRank_idem (ro : Nat → Option Int) (j : Nat) (s : Section) :
    applyRank ro j (applyRank ro j s) = applyRank ro j s := by
  unfold applyRank
  cases ro j <;> rfl

theorem applyRank_overwrite (ro : Nat → Option Int) (j : Nat) (s : Section)
    (r : Option Int) :
    { applyRank ro j s with rank := r } = { s with rank := r } := by
  unfold applyRank
  cases ro j <;> rfl

theorem mem_setRanksSections {ro : Nat → Option Int} :
    ∀ {j : Nat} {l : List Section} {s' : Section},
      s' ∈ setRanksSections ro j l → ∃ s ∈ l, ∃ i, s' = applyRank ro i s := by
  intro j l
  induction l generalizing j with
  | nil => intro s' h; cases h
  | cons s ss ih =>
    intro s' h
    rcases List.mem_cons.1 h with heq | hmem
    · exact ⟨s, List.mem_cons_self s ss, j, heq⟩
    · rcases ih hmem with ⟨s0, hs0, i, hi⟩
      exact ⟨s0, List.mem_cons_of_mem s hs0, i, hi⟩

theorem mem_setRanksDocs {ro : Nat → Option Int} :
    ∀ {j : Nat} {ds : List Document} {d' : Document},
      d' ∈ setRanksDocs ro j ds →
        ∃ d ∈ ds, ∃ i, d' = { d with sections := setRanksSections ro i d.sections } := by
  intro j ds
  induction ds generalizing j with
  | nil => intro d' h; cases h
  | cons d ds ih =>
    intro d' h
    rcases List.mem_cons.1 h with heq | hmem
    · exact ⟨d, List.mem_cons_self d ds, j, heq⟩
    · rcases ih hmem with ⟨d0, hd0, i, hi⟩
      exact ⟨d0, List.mem_cons_of_mem d hd0, i, hi⟩

/-- Every section of the post-state of a successful run carries ready
chunks and its own aggregate. -/
theorem post_section_shape {eng : RankingEngine} {docs : List Document}
    {q : List ℚ} (hB : (scoreDocs q docs).2 = true) (ro : Nat → Option Int)
    (j : Nat) {d' : Document}
    (hd : d' ∈ setRanksDocs ro j
      (aggregateDocs eng.top_k_chunks (scoreDocs q docs).1))
    {s' : Section} (hs : s' ∈ d'.sections) :
    (∀ c ∈ s'.chunks, ChunkReady q c) ∧
      s'.aggregated_score = some (aggScore eng.top_k_chunks s'.chunks) := by
  rcases mem_setRanksDocs hd with ⟨dA, hdA, i, hdi⟩
  rw [hdi] at hs
  rcases mem_setRanksSections hs with ⟨sA, hsA, i2, hsi⟩
  rcases List.mem_map.1 (by
    rw [scoreDocs_fst_of_snd_true hB] at hdA
    unfold aggregateDocs at hdA
    rw [List.map_map] at hdA
    exact hdA) with ⟨d0, hd0, hdeq⟩
  subst hdeq
  have hsA' : sA ∈ (d0.sections.map (writeScoreSec q)).map
      (aggregateSection eng.top_k_chunks) := hsA
  rcases List.mem_map.1 hsA' with ⟨sW, hsW, hseq⟩
  rcases List.mem_map.1 hsW with ⟨s0, hs0, hweq⟩
  have hch : s'.chunks = s0.chunks.map (writeScore q) := by
    rw [hsi, applyRank_chunks, ← hseq, aggregateSection_chunks, ← hweq]
    rfl
  constructor
  · intro c hc
    rw [hch] at hc
    rcases List.mem_map.1 hc with ⟨c0, hc0, hceq⟩
    have hlen : c0.embedding.length = q.length :=
      (scoreDocs_snd_true_iff q docs).1 hB d0 hd0 s0 hs0 c0 hc0
    subst hceq
    exact ⟨hlen, rfl⟩
  · rw [hsi, applyRank_agg, applyRank_chunks, ← hseq, aggregateSection_score,
      aggregateSection_chunks]

/-- Re-tagging of a position-tagged section by the rank write-back: the
position is untouched and only the section's `rank` field changes. -/
def retag (ro : Nat → Option Int) (p : Nat × Section) : Nat × Section :=
  (p.1, applyRank ro p.1 p.2)

theorem withIdx_setRanksSections (ro : Nat → Option Int) :
    ∀ (j : Nat) (l : List Section),
      withIdx j (setRanksSections ro j l) = (withIdx j l).map (retag ro)
  | _, [] => rfl
  | j, s :: ss => by
    simp only [setRanksSections, withIdx, List.map_cons, retag]
    rw [withIdx_setRanksSections ro (j + 1) ss]

theorem orderedInsert_map_rel {R : α → α → Prop} {S : β → β → Prop}
    [DecidableRel R] [DecidableRel S] {g : α → β}
    (hg : ∀ a b, S (g a) (g b) ↔ R a b) (a : α) :
    ∀ l : List α, List.orderedInsert S (g a) (l.map g) =
      (List.orderedInsert R a l).map g
  | [] => rfl
  | b :: l => by
    simp only [List.orderedInsert, List.map_cons]
    by_cases h : R a b
    · rw [if_pos ((hg a b).2 h), if_pos h]
      simp
    · rw [if_neg (fun hc => h ((hg a b).1 hc)), if_neg h]
      simp only [List.map_cons]
      rw [orderedInsert_map_rel hg a l]

theorem insertionSort_map_rel {R : α → α → Prop} {S : β → β → Prop}
    [DecidableRel R] [DecidableRel S] {g : α → β}
    (hg : ∀ a b, S (g a) (g b) ↔ R a b) :
    ∀ l : List α, List.insertionSort S (l.map g) =
      (List.insertionSort R l).map g
  | [] => rfl
  | a :: l => by
    simp only [List.insertionSort, List.map_cons]
    rw [insertionSort_map_rel hg l, orderedInsert_map_rel hg a _]

theorem secBefore_retag (ro : Nat → Option Int) (a b : Nat × Section) :
    secBefore (retag ro a) (retag ro b) ↔ secBefore a b := by
  unfold secBefore retag
  rw [applyRank_secScore, applyRank_secScore]

theorem indexedScored_setRanks (ro : Nat → Option Int) (secs : List Section) :
    indexedScored (setRanksSections ro 0 secs) =
      (indexedScored secs).map (retag ro) := by
  unfold indexedScored
  rw [withIdx_setRanksSections, List.filter_map]
  congr 1
  refine List.filter_congr fun p _ => ?_
  show ((retag ro p).2.aggregated_score).isSome = (p.2.aggregated_score).isSome
  unfold retag
  rw [applyRank_agg]

theorem sortedIndexed_setRanks (ro : Nat → Option Int) (secs : List Section) :
    sortedIndexed (setRanksSections ro 0 secs) =
      (sortedIndexed secs).map (retag ro) := by
  unfold sortedIndexed
  rw [indexedScored_setRanks]
  exact insertionSort_map_rel (secBefore_retag ro) _

theorem assignRanks_map_retag (ro : Nat → Option Int) (l : List (Nat × Section)) :
    assignRanks (l.map (retag ro)) = assignRanks l := by
  unfold assignRanks
  rw [withIdx_map, List.map_map]
  refine List.map_congr_left fun p _ => ?_
  show ({ (retag ro p.2).2 with rank := some ((p.1 : Int) + 1) } : Section) =
    { p.2.2 with rank := some ((p.1 : Int) + 1) }
  unfold retag
  exact applyRank_overwrite ro p.2.1 p.2.2 _

theorem find?_map_retag (ro : Nat → Option Int) :
    ∀ (l : List (Nat × (Nat × Section))) (j : Nat),
      ((l.map fun p => (p.1, retag ro p.2)).find? fun p => p.2.1 = j).map
          (fun p => ((p.1 : Int) + 1)) =
        (l.find? fun p => p.2.1 = j).map fun p => ((p.1 : Int) + 1)
  | [], _ => rfl
  | p :: l, j => by
    have hretag : (retag ro p.2).1 = p.2.1 := rfl
    simp only [List.map_cons, List.find?]
    by_cases h : p.2.1 = j
    · simp [hretag, h]
    · simp only [hretag, h, decide_eq_false, Bool.false_eq_true, if_false]
      exact find?_map_retag ro l j

theorem rankOf_setRanks (ro : Nat → Option Int) (secs : List Section) :
    rankOf (setRanksSections ro 0 secs) = rankOf secs := by
  funext j
  unfold rankOf
  rw [sortedIndexed_setRanks, withIdx_map]
  exact find?_map_retag ro (withIdx 0 (sortedIndexed secs)) j

theorem setRanksSections_length (ro : Nat → Option Int) :
    ∀ (j : Nat) (l : List Section), (setRanksSections ro j l).length = l.length
  | _, [] => rfl
  | j, s :: ss => by
    simp only [setRanksSections, List.length_cons,
      setRanksSections_length ro (j + 1) ss]

theorem setRanksSections_idem (ro : Nat → Option Int) :
    ∀ (j : Nat) (l : List Section),
      setRanksSections ro j (setRanksSections ro j l) = setRanksSections ro j l
  | _, [] => rfl
  | j, s :: ss => by
    simp only [setRanksSections]
    rw [applyRank_idem, setRanksSections_idem ro (j + 1) ss]

theorem setRanksDocs_idem (ro : Nat → Option Int) :
    ∀ (j : Nat) (ds : List Document),
      setRanksDocs ro j (setRanksDocs ro j ds) = setRanksDocs ro j ds
  | _, [] => rfl
  | j, d :: ds => by
    simp only [setRanksDocs]
    rw [setRanksSections_idem, setRanksSections_length,
      setRanksDocs_idem ro (j + d.sections.length) ds]

theorem setRanksSections_append (ro : Nat → Option Int) :
    ∀ (j : Nat) (l₁ l₂ : List Section),
      setRanksSections ro j (l₁ ++ l₂) =
        setRanksSections ro j l₁ ++ setRanksSections ro (j + l₁.length) l₂
  | _, [], _ => by simp [setRanksSections]
  | j, s :: ss, l₂ => by
    simp only [List.cons_append, setRanksSections, List.length_cons, List.append_eq]
    rw [setRanksSections_append ro (j + 1) ss l₂]
    have h : j + (ss.length + 1) = j + 1 + ss.length := by omega
    rw [h]

theorem flatten_setRanksDocs (ro : Nat → Option Int) :
    ∀ (j : Nat) (ds : List Document),
      flattenSections (setRanksDocs ro j ds) =
        setRanksSections ro j (flattenSections ds)
  | _, [] => rfl
  | j, d :: ds => by
    have ih := flatten_setRanksDocs ro (j + d.sections.length) ds
    simp only [setRanksDocs, flattenSections, List.flatMap_cons] at ih ⊢
    rw [ih, setRanksSections_append]

/-- **C8** (confirmed).  `rank_sections_globally` is idempotent over its own
side effects: running it again on the post-state it produced (chunks already
carrying similarity scores, sections already carrying aggregated scores and
ranks) returns exactly the same post-state and the same ranked list — the
residual state of the first run does not influence the second, because every
score and rank is recomputed and overwritten from the unchanged embeddings
and order. -/
theorem ranking_idempotent (eng : RankingEngine) (docs : List Document)
    (q : List ℚ) (post : List Document) (ranked : List Section)
    (h : rankSectionsGlobally eng docs q = Except.ok (post, ranked)) :
    rankSectionsGlobally eng post q = Except.ok (post, ranked) := by
  rcases rankSectionsGlobally_ok h with ⟨hB, hpost, hranked⟩
  have hshape : ∀ d' ∈ post, ∀ s' ∈ d'.sections,
      (∀ c ∈ s'.chunks, ChunkReady q c) ∧
        s'.aggregated_score = some (aggScore eng.top_k_chunks s'.chunks) := by
    intro d' hd s' hs
    rw [hpost] at hd
    exact post_section_shape hB _ _ hd hs
  have hscore2 : scoreDocs q post = (post, true) :=
    scoreDocs_fixed fun d hd s hs c hc => (hshape d hd s hs).1 c hc
  have hagg2 : aggregateDocs eng.top_k_chunks post = post :=
    aggregateDocs_fixed fun d hd s hs => (hshape d hd s hs).2
  have hT : scoredAggSections eng post q =
      setRanksSections (rankOf (scoredAggSections eng docs q)) 0
        (scoredAggSections eng docs q) := by
    unfold scoredAggSections
    rw [hscore2]
    show flattenSections (aggregateDocs eng.top_k_chunks post) = _
    rw [hagg2, hpost]
    exact flatten_setRanksDocs _ 0 _
  have hranked2 : assignRanks (sortedIndexed (scoredAggSections eng post q)) =
      ranked := by
    rw [hT, sortedIndexed_setRanks, assignRanks_map_retag, ← hranked]
  have hro2 : rankOf (scoredAggSections eng post q) =
      rankOf (scoredAggSections eng docs q) := by
    rw [hT]
    exact rankOf_setRanks _ _
  have hpost2 : setRanksDocs (rankOf (scoredAggSections eng post q)) 0
      (aggregateDocs eng.top_k_chunks post) = post := by
    rw [hro2, hagg2, hpost]
    exact setRanksDocs_idem _ 0 _
  have hfin : rankSectionsGlobally eng post q =
      Except.ok (setRanksDocs (rankOf (scoredAggSections eng post q)) 0
        (aggregateDocs eng.top_k_chunks post),
        assignRanks (sortedIndexed (scoredAggSections eng post q))) := by
    unfold rankSectionsGlobally
    rw [hscore2]
    simp
  rw [hfin, hpost2, hranked2]

theorem ranking_idempotent_witness :
    rankSectionsGlobally {} exPost [1] = Except.ok (exPost, exRanked) :=
  ranking_idempotent {} [exDoc] [1] exPost exRanked exDoc_run

end Challenge1b
